import Mathlib

/-!
Verification development for `ris_to_excel.py`, a converter of bibliographic
RIS export files into grouped, filtered, de-duplicated tabular reports.

The Python source is shallowly embedded: strings are Lean `String`s
(character-level operations are modelled on `List Char` over the ASCII
fragment that the program's data uses), Python dictionaries holding the
tag → value mapping of one RIS record become insertion-ordered association
lists, pandas row frames become `List Row`, and the few regular expressions
of the source are modelled by equivalent deterministic scanning functions.
-/

namespace Ris


/-! ## Python-style string helpers -/

/-- Whitespace characters recognised by Python's `str.strip()` / `\s`
(restricted to the ASCII range, which is all the program's data uses). -/
def pyIsSpace (c : Char) : Bool :=
  c = ' ' || c = '\t' || c = '\n' || c = '\r' || c = '\x0b' || c = '\x0c'

/-- Python `str.strip()` on a character list: drop whitespace from both ends. -/
def stripChars (cs : List Char) : List Char :=
  ((cs.dropWhile pyIsSpace).reverse.dropWhile pyIsSpace).reverse

/-- Python `str.strip()`. -/
def pyStrip (s : String) : String :=
  String.mk (stripChars s.toList)

/-- ASCII lower-casing of one character (`str.lower()` on the program's data). -/
def lowerChar (c : Char) : Char :=
  if 'A' ≤ c ∧ c ≤ 'Z' then Char.ofNat (c.toNat + 32) else c

/-- Python `str.lower()`. -/
def pyLower (s : String) : String :=
  String.mk (s.toList.map lowerChar)

/-- Word character for the regex `\b` boundary: `[a-zA-Z0-9_]`
(ASCII fragment of Python's `\w`). -/
def isWordChar (c : Char) : Bool :=
  c.isAlphanum || c = '_'

/-- Containment `needle in hay` for character lists: contiguous substring containment. -/
def subList : List Char → List Char → Bool
  | hay, needle =>
    match hay with
    | [] => needle.isEmpty
    | _ :: t => needle.isPrefixOf hay || subList t needle

/-- Python's `needle in hay` on strings. -/
def pyContains (hay needle : String) : Bool :=
  subList hay.toList needle.toList

/-- Numeric value of a list of decimal digit characters (Python `int`). -/
def digitsVal (cs : List Char) : Nat :=
  cs.foldl (fun n c => n * 10 + (c.toNat - '0'.toNat)) 0

/-! ## Data model: RIS records

A Python dict mapping a two-character tag to either a scalar string or a
list of strings (for repeated tags), with insertion order preserved,
becomes an association list. -/

/-- A tag's stored value: scalar on first occurrence, list once repeated. -/
inductive TagVal where
  | scalar : String → TagVal
  | vals : List String → TagVal
deriving DecidableEq, Repr

/-- One RIS record: insertion-ordered tag → value association list. -/
abbrev Record := List (String × TagVal)

/-- Dict lookup `r.get(t)`: value of the first (only, since keys are unique) entry for `t`. -/
def getTag : Record → String → Option TagVal
  | [], _ => none
  | (t', v) :: r, t => if t' = t then some v else getTag r t

/-- Python dict assignment `r[t] = v`: update in place if the key exists,
otherwise append at the end (insertion order). -/
def setTag : Record → String → TagVal → Record
  | [], t, v => [(t, v)]
  | (t', v') :: r, t, v =>
      if t' = t then (t, v) :: r else (t', v') :: setTag r t v

/-- Helper `add_value` from `parse_ris_file`: repeats of a tag are stored as a
list, first occurrence as a scalar. -/
def add_value (r : Record) (tag val : String) : Record :=
  match getTag r tag with
  | some (.vals vs) => setTag r tag (.vals (vs ++ [val]))
  | some (.scalar s) => setTag r tag (.vals [s, val])
  | none => setTag r tag (.scalar val)

/-! ## Tag parser (`parse_ris_file`) -/

/-- Characters allowed in a tag by `TAG_LINE_RE`: `[A-Z0-9]`. -/
def isTagChar (c : Char) : Bool :=
  ('A' ≤ c ∧ c ≤ 'Z') || c.isDigit

/-- Model of `TAG_LINE_RE = ^(?P<tag>[A-Z0-9]{2})\s*-\s*(?P<val>.*)$` applied
with `.match`: two tag characters, optional whitespace, a dash, optional
whitespace, and the remainder of the line as the (not yet stripped) value. -/
def matchTagLine (line : String) : Option (String × String) :=
  match line.toList with
  | c1 :: c2 :: rest =>
      if isTagChar c1 && isTagChar c2 then
        match rest.dropWhile pyIsSpace with
        | '-' :: r2 => some (String.mk [c1, c2], String.mk (r2.dropWhile pyIsSpace))
        | _ => none
      else none
  | _ => none

/-- Tests whether the line is a tag line whose tag is the end-of-record marker. -/
def isERLine (line : String) : Bool :=
  match matchTagLine line with
  | some (t, _) => t = "ER"
  | none => false

/-- Replace the last element of a list by the image of `f` (the effect of
`lst[-1] = f(lst[-1])`; the empty case is unreachable in the parser). -/
def updateLast : List String → (String → String) → List String
  | [], _ => []
  | [v], f => [f v]
  | v :: vs, f => v :: updateLast vs f

/-- Mutable parser state of `parse_ris_file`: the records already emitted,
the record being built, and the most recently seen tag. -/
structure PState where
  records : List Record
  current : Record
  lastTag : Option String
deriving DecidableEq, Repr

/-- Processing of one (terminator-stripped) line of `parse_ris_file`. -/
def stepLine (st : PState) (line : String) : PState :=
  match matchTagLine line with
  | none =>
      -- Continuation line: append to the previous tag's value.
      match st.lastTag with
      | some lt =>
          if pyStrip line ≠ "" then
            match getTag st.current lt with
            | some (.vals vs) =>
                let vs' := updateLast vs (fun old => pyStrip (old ++ " " ++ pyStrip line))
                { st with current := setTag st.current lt (.vals vs') }
            | some (.scalar s) =>
                let s' := pyStrip (s ++ " " ++ pyStrip line)
                { st with current := setTag st.current lt (.scalar s') }
            | none =>
                let s' := pyStrip ("" ++ " " ++ pyStrip line)
                { st with current := setTag st.current lt (.scalar s') }
          else st
      | none => st
  | some (tag, rawVal) =>
      let val := pyStrip rawVal
      if tag = "ER" then
        -- finish_one(): append the current record if non-empty; start_new().
        { records := st.records ++ (if st.current = [] then [] else [st.current]),
          current := [], lastTag := none }
      else
        { st with current := add_value st.current tag val, lastTag := some tag }

/-- Run the parser loop over a list of lines from a given state. -/
def runLines (st : PState) (lines : List String) : PState :=
  lines.foldl stepLine st

/-- The parser `parse_ris_file`, over the list of terminator-stripped lines of the file. -/
def parse_ris_file (lines : List String) : List Record :=
  (runLines ⟨[], [], none⟩ lines).records

/-- The record buffer accumulated by a run of lines starting from a fresh
record (used to state what a terminated block contributes). -/
def buildCurrent (lines : List String) : Record :=
  (runLines ⟨[], [], none⟩ lines).current

/-! Counting machine used to state claim C1: it tracks, through the same
line discipline as the parser, only the number of end-of-record tag lines
that found a non-empty record buffer, whether the buffer is currently
non-empty, and whether a last tag is set. -/

/-- Abstract counting state: emitted-record count, buffer non-emptiness,
last-tag presence. -/
structure CState where
  n : Nat
  ne : Bool
  lt : Bool
deriving DecidableEq, Repr

/-- One line of the counting machine (mirrors `stepLine`'s effect on the
abstraction). -/
def countStep (st : CState) (line : String) : CState :=
  match matchTagLine line with
  | some (t, _) =>
      if t = "ER" then ⟨st.n + (if st.ne then 1 else 0), false, false⟩
      else ⟨st.n, true, true⟩
  | none =>
      if pyStrip line ≠ "" then ⟨st.n, st.ne || st.lt, st.lt⟩ else st

/-- Number of end-of-record tag lines that are reached with a non-empty
record buffer ( = number of terminated records of the input). -/
def erCount (lines : List String) : Nat :=
  (lines.foldl countStep ⟨0, false, false⟩).n

/-- Tag/value pairs (values stripped) carried by a list of tag lines. -/
def tagPairs (lines : List String) : List (String × String) :=
  lines.filterMap (fun l => (matchTagLine l).map (fun p => (p.1, pyStrip p.2)))

/-- Folding `add_value` over a list of tag/value pairs, starting from an
empty record: the record a block of plain (non-ER, non-continuation) tag
lines builds. -/
def buildRecord (ps : List (String × String)) : Record :=
  ps.foldl (fun r p => add_value r p.1 p.2) []

/-- How one tag's occurrence list is stored in a record: absent ↦ nothing,
one occurrence ↦ scalar, `k > 1` occurrences ↦ the `k`-element list in
source order. (This is the storage discipline claimed by the spec.) -/
def encodeOcc : List String → Option TagVal
  | [] => none
  | [v] => some (.scalar v)
  | v :: w :: vs => some (.vals (v :: w :: vs))

/-- The value occurrences of tag `t` among a pair list, in source order. -/
def occVals (t : String) (ps : List (String × String)) : List String :=
  (ps.filter (fun p => p.1 = t)).map (fun p => p.2)

/-! ### Lemmas: `add_value` fold builds scalar-or-list values -/

/-- Joining an already-stored value with further occurrences. -/
def combineOcc : Option TagVal → List String → Option TagVal
  | o, [] => o
  | none, v :: vs => encodeOcc (v :: vs)
  | some (.scalar s), v :: vs => some (.vals (s :: v :: vs))
  | some (.vals ws), v :: vs => some (.vals (ws ++ v :: vs))

/-- Abstraction map from parser state to counting state. -/
def absState (st : PState) : CState :=
  ⟨st.records.length, !st.current.isEmpty, st.lastTag.isSome⟩

/-! ## Field resolver: provider/Index heuristics (`index_from_record`)

URL host extraction models the netloc logic of `urllib.parse.urlparse`
(CPython 3.11, ASCII fragment): strip leading C0-control/space characters
and remove every tab, carriage return and newline; strip a leading
`scheme:` when the prefix before the first colon is a valid scheme; read
a netloc only after a leading `//`, up to the first `/`, `?` or `#`.
`urlsplit` then raises `ValueError` on a mismatched bracket in the
netloc, and on a bracketed host that is neither a well-formed IPvFuture
literal nor an address accepted by `ipaddress.ip_address` as IPv6
(an IPv4 address in brackets also raises); `index_from_record` turns
that exception into the no-URL fall-through, so the model returns an
`Option`, with `none` for the raised error. -/

/-- The domain → provider-name map, in the source's declared order. -/
def PROVIDER_MAP : List (String × String) :=
  [("ieeexplore.ieee.org", "IEEE Xplore"),
   ("sciencedirect.com", "ScienceDirect"),
   ("webofscience.com", "Web of Science"),
   ("link.springer.com", "SpringerLink"),
   ("springer.com", "SpringerLink"),
   ("onlinelibrary.wiley.com", "Wiley Online Library"),
   ("wiley.com", "Wiley Online Library"),
   ("pubmed.ncbi.nlm.nih.gov", "PubMed"),
   ("dl.acm.org", "ACM Digital Library"),
   ("acm.org", "ACM Digital Library"),
   ("tandfonline.com", "Taylor & Francis"),
   ("nature.com", "Nature")]

/-- Characters allowed in a URL scheme (`urllib.parse.scheme_chars`). -/
def schemeChar (c : Char) : Bool :=
  c.isAlpha || c.isDigit || c = '+' || c = '-' || c = '.'

/-- Drop a leading `scheme:` from a URL as `urlsplit` does. -/
def removeScheme (cs : List Char) : List Char :=
  match cs.findIdx? (fun c => c = ':') with
  | some i =>
      if 0 < i ∧ (cs.take i).all schemeChar ∧ (cs.headD ' ').isAlpha
      then cs.drop (i + 1) else cs
  | none => cs

/-- Preprocessing of `urlsplit` (WHATWG alignment): `lstrip` of C0
control characters and space, then removal of every tab, carriage return
and newline anywhere in the URL. -/
def urlPreprocess (cs : List Char) : List Char :=
  (cs.dropWhile (fun c => c.toNat ≤ 32)).filter
    (fun c => !(c = '\t' || c = '\r' || c = '\n'))

/-- Hexadecimal digit (`ipaddress._BaseV6._HEX_DIGITS`). -/
def isHexDigit (c : Char) : Bool :=
  c.isDigit || ('a' ≤ c && c ≤ 'f') || ('A' ≤ c && c ≤ 'F')

/-- Valid IPv6 hextet (`_parse_hextet`): one to four hex digits. -/
def validHextet (p : List Char) : Bool :=
  !p.isEmpty && decide (p.length ≤ 4) && p.all isHexDigit

/-- Valid IPv4 octet (`_parse_octet`): one to three decimal digits, no
leading zero, value at most 255. -/
def validOctet (p : List Char) : Bool :=
  !p.isEmpty && p.all Char.isDigit && decide (p.length ≤ 3)
    && (decide (p.length = 1) || !(p.headD '0' = '0'))
    && decide (digitsVal p ≤ 255)

/-- Python `str.split(sep)` for a single-character separator. -/
def splitOnChar (sep : Char) : List Char → List (List Char)
  | [] => [[]]
  | c :: t =>
      let rest := splitOnChar sep t
      if c = sep then [] :: rest
      else
        match rest with
        | [] => [[c]]
        | h :: t2 => (c :: h) :: t2

/-- Validity of an IPv4 address string (`ipaddress.IPv4Address`): four
dot-separated octets. (The `/` check is vacuous here: a netloc never
contains `/`.) -/
def validIPv4 (cs : List Char) : Bool :=
  let parts := splitOnChar '.' cs
  decide (parts.length = 4) && parts.all validOctet

/-- The part-count and `::`-compression discipline of
`ipaddress.IPv6Address._ip_int_from_string`, applied to the colon-split
parts after IPv4-suffix conversion. -/
def ipv6PartsOk (parts : List (List Char)) : Bool :=
  let n := parts.length
  let interior := (parts.drop 1).dropLast
  let empties := interior.filter (fun p => p.isEmpty)
  if empties.length = 0 then
    decide (n = 8) && parts.all validHextet
  else if empties.length = 1 then
    match interior.findIdx? (fun p => p.isEmpty) with
    | none => false
    | some i0 =>
        let skip := i0 + 1
        let firstEmpty := (parts.headD ['x']).isEmpty
        let lastEmpty := (parts.getLastD ['x']).isEmpty
        let hi := if firstEmpty then 0 else skip
        let lo := if lastEmpty then 0 else n - skip - 1
        (!firstEmpty || decide (skip = 1))
          && (!lastEmpty || decide (skip = n - 2))
          && decide (1 ≤ 8 - (hi + lo))
          && (parts.take hi).all validHextet
          && (parts.drop (n - lo)).all validHextet
  else false

/-- Convert a trailing IPv4-style part into two hextets, as
`_ip_int_from_string` does; `none` when the suffix is not a valid IPv4
address. -/
def convertV4Suffix (parts : List (List Char)) : Option (List (List Char)) :=
  match parts.getLast? with
  | none => none
  | some last =>
      if last.any (fun c => c = '.') then
        if validIPv4 last then some (parts.dropLast ++ [['0'], ['0']]) else none
      else some parts

/-- Validity of an IPv6 address string with optional `%scope`
(`ipaddress.IPv6Address`, CPython 3.11): a non-empty scope without a
second `%`, at least three colon-separated parts, an optional valid IPv4
suffix, at most nine parts, and the `::` discipline of `ipv6PartsOk`. -/
def validIPv6 (cs : List Char) : Bool :=
  let addr := cs.takeWhile (fun c => c ≠ '%')
  let hasScope := cs.any (fun c => c = '%')
  let scope := (cs.dropWhile (fun c => c ≠ '%')).drop 1
  (!hasScope || (!scope.isEmpty && scope.all (fun c => c ≠ '%')))
    && !addr.isEmpty
    && (let parts0 := splitOnChar ':' addr
        decide (3 ≤ parts0.length)
          && (match convertV4Suffix parts0 with
              | none => false
              | some parts => decide (parts.length ≤ 9) && ipv6PartsOk parts))

/-- `_check_bracketed_host` (CPython 3.11): a host starting with a
lowercase `v` must match the IPvFuture shape `v<hex+>.<char+>`; any other
host must be accepted by `ipaddress.ip_address` as IPv6 (an IPv4 address
in brackets is rejected explicitly, and IPv4/IPv6 shapes are disjoint). -/
def bracketedHostOk (host : List Char) : Bool :=
  match host with
  | 'v' :: rest =>
      let hexs := rest.takeWhile isHexDigit
      let after := rest.dropWhile isHexDigit
      !hexs.isEmpty
        && (match after with
            | '.' :: tl => !tl.isEmpty && tl.all (fun c => c ≠ '\n')
            | _ => false)
  | _ => !validIPv4 host && validIPv6 host

/-- Python `urlparse(url).netloc` under `index_from_record`'s `try`
(ASCII fragment, CPython 3.11): the netloc is present only after `//`
and ends at `/`, `?` or `#`; `none` models the `ValueError` that
`urlsplit` raises on a mismatched bracket or an invalid bracketed host
(the text between the first `[` and the first `]` after it). -/
def urlNetloc (url : String) : Option String :=
  match removeScheme (urlPreprocess url.toList) with
  | '/' :: '/' :: rest =>
      let netloc := rest.takeWhile (fun c => c ≠ '/' ∧ c ≠ '?' ∧ c ≠ '#')
      let hasL := netloc.any (fun c => c = '[')
      let hasR := netloc.any (fun c => c = ']')
      if (hasL && !hasR) || (hasR && !hasL) then none
      else if hasL && hasR then
        let bracketed :=
          (((netloc.dropWhile (fun c => c ≠ '[')).drop 1).takeWhile (fun c => c ≠ ']'))
        if bracketedHostOk bracketed then some (String.mk netloc) else none
      else some (String.mk netloc)
  | _ => some ""

/-- Dict lookup `r.get(k)` followed by `v[0] if v else ""` for lists: the scalar
candidate value of a tag (the shape used for `UR` and the date tags). -/
def tagHead (r : Record) (k : String) : String :=
  match getTag r k with
  | some (.vals vs) => vs.headD ""
  | some (.scalar s) => s
  | none => ""

/-- Python's `s.startswith(pre)` (structural, so it kernel-reduces). -/
def strStarts (s pre : String) : Bool :=
  pre.toList.isPrefixOf s.toList

/-- The `for k, v in PROVIDER_MAP.items(): if k in host: return v` loop. -/
def providerScan : List (String × String) → String → Option String
  | [], _ => none
  | (k, v) :: rest, host =>
      if pyContains host k then some v else providerScan rest host

/-- Python truthiness of an optional tag value (`None`, `""` and `[]` are
falsy). -/
def truthyTag : Option TagVal → Bool
  | none => false
  | some (.scalar s) => s ≠ ""
  | some (.vals l) => !l.isEmpty

/-- Python `str(v)` on a tag value. For a list Python produces its `repr`; we
model it without escaping of quotes/backslashes, which is observationally
identical here: any list repr starts with `[`, so it can never match a
DOI prefix and never changes the outcome of `index_from_record`. -/
def pyStrOfTagVal : TagVal → String
  | .scalar s => s
  | .vals l => "[" ++ String.intercalate ", " (l.map (fun s => "\x27" ++ s ++ "\x27")) ++ "]"

/-- Python `str(r.get("DO") or r.get("DOI") or "").strip().lower()`. -/
def doiOfRecord (r : Record) : String :=
  let raw :=
    if truthyTag (getTag r "DO") then (getTag r "DO").getD (.scalar "")
    else if truthyTag (getTag r "DOI") then (getTag r "DOI").getD (.scalar "")
    else .scalar ""
  pyLower (pyStrip (pyStrOfTagVal raw))

/-- Does a case-insensitive standalone `exports` start here (given the
previous character's word-ness is checked by the caller)? -/
def exportsAt (cs : List Char) : Bool :=
  ((cs.take 7).map lowerChar = "exports".toList)
    && (match cs.drop 7 with | [] => true | c :: _ => !isWordChar c)

/-- Python `re.sub(r"\bexports\b", "", fb, flags=re.IGNORECASE)`: left-to-right,
non-overlapping; the `Nat` counter skips the remaining characters of a
match, the `Bool` carries whether the previous original character is a
word character (for the left `\b`). -/
def subExportsAux : Nat → Bool → List Char → List Char
  | _, _, [] => []
  | 0, prev, c :: t =>
      if !prev && exportsAt (c :: t) then subExportsAux 6 (isWordChar c) t
      else c :: subExportsAux 0 (isWordChar c) t
  | k + 1, _, c :: t => subExportsAux k (isWordChar c) t

/-- Python `str.title()` (ASCII): uppercase an alphabetic character following a
non-alphabetic one, lowercase the rest. -/
def pyTitleAux : Bool → List Char → List Char
  | _, [] => []
  | prev, c :: t =>
      (if c.isAlpha then (if prev then lowerChar c else c.toUpper) else c)
        :: pyTitleAux c.isAlpha t

/-- Step 3 of `index_from_record`: clean the caller-supplied fallback. -/
def cleanFallback (fallback : String) : String :=
  let fb := pyStrip (String.mk (fallback.toList.map (fun c => if c = '_' then ' ' else c)))
  let fb := pyStrip (String.mk (subExportsAux 0 false fb.toList))
  if fb ≠ "" then String.mk (pyTitleAux false fb.toList) else "Unknown Source"

/-- The resolver `index_from_record`: provider label from the URL host
(a `ValueError` from `urlparse`, modelled by `urlNetloc` returning
`none`, is swallowed into the no-URL fall-through), else from the DOI
prefix if-chain, else the cleaned fallback. -/
def index_from_record (r : Record) (fallback : String) : String :=
  match (if pyStrip (tagHead r "UR") ≠ "" then
           match urlNetloc (pyStrip (tagHead r "UR")) with
           | some host => providerScan PROVIDER_MAP (pyLower host)
           | none => none
         else none) with
  | some label => label
  | none =>
      if doiOfRecord r ≠ "" then
        if strStarts (doiOfRecord r) "10.1109" then "IEEE Xplore"
        else if strStarts (doiOfRecord r) "10.1016" then "ScienceDirect"
        else if strStarts (doiOfRecord r) "10.1007" then "SpringerLink"
        else if strStarts (doiOfRecord r) "10.1002" then "Wiley Online Library"
        else if strStarts (doiOfRecord r) "10.1145" then "ACM Digital Library"
        else cleanFallback fallback
      else cleanFallback fallback

/-- The DOI-prefix → provider table implicit in the source's if-chain. -/
def DOI_PREFIX_TABLE : List (String × String) :=
  [("10.1109", "IEEE Xplore"),
   ("10.1016", "ScienceDirect"),
   ("10.1007", "SpringerLink"),
   ("10.1002", "Wiley Online Library"),
   ("10.1145", "ACM Digital Library")]

/-- The spec's phrasing of the Index precedence: first hit of the host
against the provider map in declared order, else first matching DOI
prefix of the fixed table, else the cleaned fallback. -/
def indexSpec (r : Record) (fallback : String) : String :=
  match (if pyStrip (tagHead r "UR") ≠ "" then
           match urlNetloc (pyStrip (tagHead r "UR")) with
           | some host =>
               (PROVIDER_MAP.find? (fun kv => pyContains (pyLower host) kv.1)).map Prod.snd
           | none => none
         else none) with
  | some label => label
  | none =>
      match (if doiOfRecord r ≠ "" then
               (DOI_PREFIX_TABLE.find? (fun kv =>
                  strStarts (doiOfRecord r) kv.1)).map Prod.snd
             else none) with
      | some label => label
      | none => cleanFallback fallback

/-! ## Field resolver: year extraction (`year_from_any`) -/

/-- Does `\b(19|20)\d{2}\b` match starting exactly here (the left boundary
is the caller's concern)? -/
def yearAt (cs : List Char) : Bool :=
  match cs with
  | c0 :: c1 :: c2 :: c3 :: rest =>
      ((c0 = '1' && c1 = '9') || (c0 = '2' && c1 = '0'))
        && c2.isDigit && c3.isDigit
        && (match rest with | [] => true | c :: _ => !isWordChar c)
  | _ => false

/-- Leftmost-match scan of `re.search(r"\b(19|20)\d{2}\b", s)`: the `Bool`
carries whether the previous character is a word character. -/
def yearScanAux : Bool → List Char → Option String
  | _, [] => none
  | prev, c :: t =>
      if !prev && yearAt (c :: t) then some (String.mk ((c :: t).take 4))
      else yearScanAux (isWordChar c) t

/-- Python `re.search(r"\b(19|20)\d{2}\b", s)`, returning the matched text. -/
def yearSearch (s : String) : Option String :=
  yearScanAux false s.toList

/-- The loop of `year_from_any` over the date-tag priority list. -/
def yearFromTags (r : Record) : List String → String
  | [] => ""
  | k :: ks =>
      if pyStrip (tagHead r k) ≠ "" then
        match yearSearch (pyStrip (tagHead r k)) with
        | some m => m
        | none => yearFromTags r ks
      else yearFromTags r ks

/-- The resolver `year_from_any`: first year found among `PY`, `Y1`, `DA`, `DP`. -/
def year_from_any (r : Record) : String :=
  yearFromTags r ["PY", "Y1", "DA", "DP"]

/-- First `some` of a list of options (the spec's "return on first
match"). -/
def firstSome : List (Option String) → Option String
  | [] => none
  | some x :: _ => some x
  | none :: rest => firstSome rest

/-! ## Rows and the filter engine (`apply_filters`) -/

/-- One resolved output row: the persisted columns of `OUT_COLS` plus the
bookkeeping columns `_source_file` (added by `ris_records_to_rows`) and
`_group` (added by the orchestrator). -/
structure Row where
  Title : String
  Year : String
  Index : String
  DOI : String
  authorSurname : String
  authorName : String
  sourceFile : String
  grp : String
deriving DecidableEq, Repr

/-- Python `str.isdigit()` on the ASCII fragment: non-empty, all digits. -/
def pyIsDigits (cs : List Char) : Bool :=
  !cs.isEmpty && cs.all Char.isDigit

/-- Predicate `year_ok` from `apply_filters`: strip, require digits, compare the
integer against whichever bounds are set. -/
def year_ok (minY maxY : Option Nat) (y : String) : Bool :=
  let ys := stripChars y.toList
  if pyIsDigits ys then
    (match minY with | some m => decide (m ≤ digitsVal ys) | none => true)
      && (match maxY with | some m => decide (digitsVal ys ≤ m) | none => true)
  else false

/-- The haystack `" ".join([Title, DOI, Author Name, Index]).lower()`. -/
def hayOf (r : Row) : String :=
  pyLower (r.Title ++ " " ++ r.DOI ++ " " ++ r.authorName ++ " " ++ r.Index)

/-- Predicate `matches_only_filter`: every term, lowercased, occurs in the haystack. -/
def matches_only_filter (r : Row) (terms : List String) : Bool :=
  terms.all (fun t => pyContains (hayOf r) (pyLower t))

/-- The filter engine `apply_filters`: the year filter runs only when a bound is set, the
keyword filter only when terms exist; surviving rows keep their order. -/
def apply_filters (rows : List Row) (minY maxY : Option Nat) (terms : List String) :
    List Row :=
  let out := if minY.isSome || maxY.isSome
             then rows.filter (fun r => year_ok minY maxY r.Year)
             else rows
  if !terms.isEmpty then out.filter (fun r => matches_only_filter r terms) else out

/-- The row predicate exactly as claim C4 words it: when any bound is set
the (untrimmed) Year must be a pure non-empty digit string within the set
bounds, and every keyword term must occur case-insensitively in the
joined Title/DOI/Author Name/Index haystack. -/
def claimKeepPred (minY maxY : Option Nat) (terms : List String) (r : Row) : Bool :=
  (if minY.isSome || maxY.isSome then
     pyIsDigits r.Year.toList
       && (match minY with | some m => decide (m ≤ digitsVal r.Year.toList) | none => true)
       && (match maxY with | some m => decide (digitsVal r.Year.toList ≤ m) | none => true)
   else true)
  && terms.all (fun t => pyContains (hayOf r) (pyLower t))

/-- The amended predicate: as `claimKeepPred`, but the Year field is
trimmed of surrounding whitespace before the digit test, matching the
source's `str(y or "").strip()`. -/
def amendedKeepPred (minY maxY : Option Nat) (terms : List String) (r : Row) : Bool :=
  (if minY.isSome || maxY.isSome then year_ok minY maxY r.Year else true)
  && terms.all (fun t => pyContains (hayOf r) (pyLower t))

/-- The row exhibiting the Year-trimming divergence of claim C4. -/
def spacedYearRow : Row :=
  ⟨"Survey of Testing", " 2015 ", "IEEE Xplore", "10.1109/x", "Smith", "Smith, J.",
   "a.ris", "1.(Q)"⟩

/-! ## Deduplicator (`deduplicate`) -/

/-- Rows with a non-empty DOI after trimming (the partition test). -/
def hasDoi (r : Row) : Bool :=
  pyStrip r.DOI ≠ ""

/-- Pandas `drop_duplicates(keep="first")` on a key: keep a row iff its key was
not seen before. -/
def dedupByAux {α : Type} [DecidableEq α] (key : Row → α) (seen : List α) :
    List Row → List Row
  | [] => []
  | r :: rs =>
      if key r ∈ seen then dedupByAux key seen rs
      else r :: dedupByAux key (key r :: seen) rs

/-- Pandas `drop_duplicates(subset, keep="first")`. -/
def dedupBy {α : Type} [DecidableEq α] (key : Row → α) (rows : List Row) : List Row :=
  dedupByAux key [] rows

/-- The key used for rows without DOI: the `(Title, Year, Author Name)`
triple. -/
def tripleKey (r : Row) : String × String × String :=
  (r.Title, r.Year, r.authorName)

/-- The deduplicator `deduplicate`: first-per-DOI among DOI rows, then first-per-triple
among the rest, concatenated in that order. -/
def deduplicate (rows : List Row) : List Row :=
  if rows.isEmpty then rows
  else
    dedupBy (fun r => r.DOI) (rows.filter hasDoi)
      ++ dedupBy tripleKey (rows.filter (fun r => !hasDoi r))

/-- The spec's wording of first-occurrence deduplication: keep the head,
drop every later row with the same key, recurse. -/
def keepFirstByKey {α : Type} [DecidableEq α] (key : Row → α) : List Row → List Row
  | [] => []
  | r :: rs =>
      r :: keepFirstByKey key (rs.filter (fun x => decide (key x ≠ key r)))
termination_by l => l.length
decreasing_by
  simp only [List.length_cons]
  exact Nat.lt_succ_of_le (List.length_filter_le _ _)

/-- Claim C5's four-row example: the DOI duplicate pair. -/
def doiDupRow : Row :=
  ⟨"", "", "", "10.1/A", "", "", "", ""⟩

/-- Claim C5's four-row example: the no-DOI duplicate pair. -/
def tripleDupRow : Row :=
  ⟨"T", "2020", "", "", "", "X", "", ""⟩

/-! ## Orchestrator: the per-group pipeline and raw view -/

/-- The per-group tail of `build_grouped_excel_for_folder`'s loop, after a
group's files have been parsed and concatenated into one row list: apply
the filters, then deduplicate when requested and the frame is non-empty. -/
def processGroup (g : List Row) (minY maxY : Option Nat) (terms : List String)
    (dd : Bool) : List Row :=
  let filtered := apply_filters g minY maxY terms
  if dd && !filtered.isEmpty then deduplicate filtered else filtered

/-- The `raw_results` view: the concatenation of every group's processed
rows, in group order, with no headers or separators. -/
def rawView (gs : List (List Row)) (minY maxY : Option Nat) (terms : List String)
    (dd : Bool) : List Row :=
  (gs.map (fun g => processGroup g minY maxY terms dd)).flatten

/-! ## Year-range parsing (`parse_year_range`) -/

/-- Model of `re.match(r"^\s*(\d{4})\s*-\s*(\d{4})\s*$", s)`, returning
the two captured numbers. -/
def yearRangeMatch (cs : List Char) : Option (Nat × Nat) :=
  match cs.dropWhile pyIsSpace with
  | a :: b :: c :: d :: rest =>
      if [a, b, c, d].all Char.isDigit then
        match rest.dropWhile pyIsSpace with
        | '-' :: r2 =>
            match r2.dropWhile pyIsSpace with
            | e :: f :: g :: h :: rest2 =>
                if [e, f, g, h].all Char.isDigit && (rest2.dropWhile pyIsSpace).isEmpty
                then some (digitsVal [a, b, c, d], digitsVal [e, f, g, h])
                else none
            | _ => none
        | _ => none
      else none
  | _ => none

/-- The range parser `parse_year_range`: empty (after strip) means no filter; a regex
failure raises; the two parsed years are swapped when out of order. -/
def parse_year_range (s : String) : Except String (Option Nat × Option Nat) :=
  if pyStrip s = "" then .ok (none, none)
  else
    match yearRangeMatch (pyStrip s).toList with
    | none => .error "Year filter must look like 2007-2017 (or empty)."
    | some (y1, y2) =>
        if y1 > y2 then .ok (some y2, some y1) else .ok (some y1, some y2)

/-- The claim's phrasing of the accepted inputs: optional whitespace, four
digits, optional whitespace, a dash, optional whitespace, four digits,
optional whitespace — with the two numeric values. -/
def yearFormSpec (s : String) (y1 y2 : Nat) : Prop :=
  ∃ w0 d1 w1 w2 d2 w3 : List Char,
    s.toList = w0 ++ (d1 ++ (w1 ++ ('-' :: (w2 ++ (d2 ++ w3)))))
    ∧ (∀ c ∈ w0, pyIsSpace c = true) ∧ (∀ c ∈ w1, pyIsSpace c = true)
    ∧ (∀ c ∈ w2, pyIsSpace c = true) ∧ (∀ c ∈ w3, pyIsSpace c = true)
    ∧ d1.length = 4 ∧ (∀ c ∈ d1, c.isDigit = true) ∧ digitsVal d1 = y1
    ∧ d2.length = 4 ∧ (∀ c ∈ d2, c.isDigit = true) ∧ digitsVal d2 = y2

/-- The claim's literal form `YYYY-YYYY` with only *surrounding*
whitespace: four digits, a dash immediately, four digits, then only
whitespace. -/
def strictYearRangeForm (s : String) : Bool :=
  match s.toList.dropWhile pyIsSpace with
  | a :: b :: c :: d :: '-' :: e :: f :: g :: h :: rest =>
      [a, b, c, d, e, f, g, h].all Char.isDigit && rest.all pyIsSpace
  | _ => false

/-! ## Group assigner (`extract_group_header`, group building, sort order)

`FNAME_RE = ^(?P<num>\d+)\.\((?P<query>.+)\)_.+\.ris$` with `re.IGNORECASE`
is modelled deterministically: maximal leading digits, a literal `.(`,
and — greedy `(.+)` — the *last* position where `)_` is followed by a
non-empty newline-free stem and a case-insensitive `.ris` extension. -/

/-- Does `tail` look like `<non-empty, newline-free stem>.ris`
(extension case-insensitive)? -/
def risTailOk (tail : List Char) : Bool :=
  match tail.reverse with
  | sc :: ic :: rc :: '.' :: restRev =>
      (lowerChar rc = 'r' && lowerChar ic = 'i' && lowerChar sc = 's')
        && !restRev.isEmpty && restRev.all (fun c => c ≠ '\n')
  | _ => false

/-- Is position `j` of the body (the text after `.(`) a valid end of the
query capture: at least one captured character, no newline in the
capture, and `)_<stem>.ris` from `j` on? -/
def validSplitAt (body : List Char) (j : Nat) : Bool :=
  decide (1 ≤ j) && (body.take j).all (fun c => c ≠ '\n')
    && (match body.drop j with
        | ')' :: '_' :: tail => risTailOk tail
        | _ => false)

/-- The greedy `(.+)`: the last valid split position. -/
def lastSplitIdx (body : List Char) : Option Nat :=
  ((List.range body.length).filter (fun j => validSplitAt body j)).getLast?

/-- Model of `FNAME_RE.match(name)`, returning the number and the query capture. -/
def fnameMatch (name : String) : Option (Nat × String) :=
  let cs := name.toList
  let ds := cs.takeWhile Char.isDigit
  match cs.dropWhile Char.isDigit with
  | '.' :: '(' :: body =>
      if ds.isEmpty then none
      else
        match lastSplitIdx body with
        | some j => some (digitsVal ds, String.mk (body.take j))
        | none => none
  | _ => none

/-- The assigner `extract_group_header`: `"N.(query)"` with sort key `N` on a match,
`"FILE: <name>"` with no key otherwise. -/
def extract_group_header (name : String) : Option Nat × String :=
  match fnameMatch name with
  | some (n, q) => (some n, toString n ++ ".(" ++ q ++ ")")
  | none => (none, "FILE: " ++ name)

/-- One file of the group-building loop of
`build_grouped_excel_for_folder`: a first-seen header appends a
`(num, header)` order key and opens the group; a later file with the same
header joins its group. -/
def buildGroupsStep (acc : List ((Option Nat × String) × List String)) (f : String) :
    List ((Option Nat × String) × List String) :=
  let key := extract_group_header f
  if acc.any (fun e => e.1.2 = key.2) then
    acc.map (fun e => if e.1.2 = key.2 then (e.1, e.2 ++ [f]) else e)
  else acc ++ [(key, [f])]

/-- The group-building loop over all files of a folder. -/
def buildGroups (files : List String) : List ((Option Nat × String) × List String) :=
  files.foldl buildGroupsStep []

/-- The `order_keys` list: one `(num, header)` per group, first-seen order. -/
def buildOrderKeys (files : List String) : List (Option Nat × String) :=
  (buildGroups files).map (fun e => e.1)

/-- Code-point lexicographic `<` on character lists (Python string `<`). -/
def strLtB : List Char → List Char → Bool
  | [], [] => false
  | [], _ :: _ => true
  | _ :: _, [] => false
  | a :: as, b :: bs => decide (a < b) || (decide (a = b) && strLtB as bs)

/-- The sort key comparison of
`order_keys.sort(key=lambda x: (x[0] is None, x[0] if x[0] is not None
else 10**9, x[1]))`: lexicographic on the key triple. -/
def pyKeyLt (x y : Option Nat × String) : Bool :=
  (!x.1.isNone && y.1.isNone)
    || ((x.1.isNone == y.1.isNone)
        && (decide (x.1.getD (10 ^ 9) < y.1.getD (10 ^ 9))
            || (x.1.getD (10 ^ 9) == y.1.getD (10 ^ 9)
                && strLtB x.2.toList y.2.toList)))

/-- Non-strict key order (`x` does not come after `y`). -/
def grpLe (x y : Option Nat × String) : Prop :=
  pyKeyLt y x = false

instance : DecidableRel grpLe := fun x y => by
  unfold grpLe
  infer_instance

/-- The group sort. Python's list sort is characterized by being a
permutation that is non-decreasing in the key, and entries with equal
keys here are identical (equal flag and number force equal constructors,
equal headers equal strings), so the stable insertion sort is
extensionally the same function. -/
def sortGroups (ks : List (Option Nat × String)) : List (Option Nat × String) :=
  List.insertionSort grpLe ks

/-- Alphabetically by header: code-point order, allowing equality. -/
def alphaLe (h1 h2 : String) : Prop :=
  strLtB h1.toList h2.toList = true ∨ h1 = h2

/-- The claim's ordering: numeric-key groups first, ascending by integer
then alphabetically by header on ties; keyless groups after, alphabetically
by header. -/
def groupLE : Option Nat × String → Option Nat × String → Prop
  | (some a, h1), (some b, h2) => a < b ∨ (a = b ∧ alphaLe h1 h2)
  | (some _, _), (none, _) => True
  | (none, _), (some _, _) => False
  | (none, h1), (none, h2) => alphaLe h1 h2

/-! ## Development: lemmas and claim theorems -/

/-! ### Lemmas: association-list store -/

theorem getTag_setTag_self (r : Record) (t : String) (v : TagVal) :
    getTag (setTag r t v) t = some v := by
  induction r with
  | nil => simp [setTag, getTag]
  | cons p r ih =>
      obtain ⟨t', v'⟩ := p
      by_cases h : t' = t <;> simp [setTag, getTag, h, ih]

theorem getTag_setTag_ne (r : Record) (t t' : String) (v : TagVal) (h : t' ≠ t) :
    getTag (setTag r t v) t' = getTag r t' := by
  have hne : ¬ (t = t') := fun h' => h h'.symm
  induction r with
  | nil => simp [setTag, getTag, hne]
  | cons p r ih =>
      obtain ⟨a, b⟩ := p
      by_cases ha : a = t
      · subst ha
        simp [setTag, getTag, hne]
      · by_cases ha' : a = t' <;> simp [setTag, getTag, ha, ha', hne, h, ih]

theorem setTag_ne_nil (r : Record) (t : String) (v : TagVal) :
    setTag r t v ≠ [] := by
  cases r with
  | nil => simp [setTag]
  | cons p r =>
      obtain ⟨a, b⟩ := p
      by_cases h : a = t <;> simp [setTag, h]

theorem add_value_ne_nil (r : Record) (t v : String) :
    add_value r t v ≠ [] := by
  unfold add_value
  cases h : getTag r t with
  | none => exact setTag_ne_nil r t _
  | some tv => cases tv <;> exact setTag_ne_nil r t _

theorem getTag_add_value_self (r : Record) (t v : String) :
    getTag (add_value r t v) t =
      match getTag r t with
      | none => some (.scalar v)
      | some (.scalar s) => some (.vals [s, v])
      | some (.vals ws) => some (.vals (ws ++ [v])) := by
  unfold add_value
  cases h : getTag r t with
  | none => simp [getTag_setTag_self]
  | some tv => cases tv <;> simp [getTag_setTag_self]

theorem getTag_add_value_ne (r : Record) (t t' v : String) (h : t' ≠ t) :
    getTag (add_value r t v) t' = getTag r t' := by
  unfold add_value
  cases getTag r t with
  | none => exact getTag_setTag_ne r t t' _ h
  | some tv => cases tv <;> exact getTag_setTag_ne r t t' _ h

theorem combineOcc_none (vs : List String) : combineOcc none vs = encodeOcc vs := by
  cases vs <;> rfl

theorem combineOcc_add (o : Option TagVal) (v : String) (vs : List String) :
    combineOcc
      (match o with
       | none => some (.scalar v)
       | some (.scalar s) => some (.vals [s, v])
       | some (.vals ws) => some (.vals (ws ++ [v]))) vs
    = combineOcc o (v :: vs) := by
  cases o with
  | none => cases vs <;> rfl
  | some tv =>
      cases tv with
      | scalar s => cases vs <;> rfl
      | vals ws => cases vs <;> simp [combineOcc, encodeOcc]

theorem getTag_foldl_add_value (ps : List (String × String)) (r : Record) (t : String) :
    getTag (ps.foldl (fun r p => add_value r p.1 p.2) r) t
      = combineOcc (getTag r t) (occVals t ps) := by
  induction ps generalizing r with
  | nil => simp [occVals, combineOcc]
  | cons p ps ih =>
      obtain ⟨t', v⟩ := p
      by_cases h : t' = t
      · simp only [List.foldl_cons]
        rw [ih]
        have hocc : occVals t ((t', v) :: ps) = v :: occVals t ps := by
          simp [occVals, h]
        rw [hocc, h, getTag_add_value_self, combineOcc_add]
      · simp only [List.foldl_cons]
        rw [ih, getTag_add_value_ne r t' t v (fun he => h he.symm)]
        have hocc : occVals t ((t', v) :: ps) = occVals t ps := by
          simp [occVals, h]
        rw [hocc]

/-! ### Lemmas: the parser loop -/

theorem runLines_append (st : PState) (a b : List String) :
    runLines st (a ++ b) = runLines (runLines st a) b := by
  simp [runLines, List.foldl_append]

theorem runLines_cons (st : PState) (l : String) (ls : List String) :
    runLines st (l :: ls) = runLines (stepLine st l) ls := rfl

theorem stepLine_records_not_er (st : PState) (l : String) (h : isERLine l = false) :
    (stepLine st l).records = st.records := by
  unfold isERLine at h
  cases hm : matchTagLine l with
  | none =>
      cases hlt : st.lastTag with
      | none => simp [stepLine, hm, hlt]
      | some lt =>
          by_cases hb : pyStrip l ≠ ""
          · cases hg : getTag st.current lt with
            | none => simp [stepLine, hm, hlt, hb, hg]
            | some tv => cases tv <;> simp [stepLine, hm, hlt, hb, hg]
          · simp [stepLine, hm, hlt, hb]
  | some p =>
      obtain ⟨t, v⟩ := p
      rw [hm] at h
      simp only [decide_eq_false_iff_not] at h
      simp [stepLine, hm, h]

theorem runLines_records_no_er (st : PState) (ls : List String)
    (h : ∀ l ∈ ls, isERLine l = false) :
    (runLines st ls).records = st.records := by
  induction ls generalizing st with
  | nil => rfl
  | cons l ls ih =>
      have h1 : isERLine l = false := h l (List.mem_cons_self l ls)
      have h2 : ∀ x ∈ ls, isERLine x = false := fun x hx => h x (List.mem_cons_of_mem l hx)
      rw [runLines_cons, ih _ h2, stepLine_records_not_er st l h1]

/-- Lemma shape: `stepLine` never reads the emitted-records component: its output state is
the old records (possibly extended) alongside components that depend only on
the buffer and last tag. -/
theorem stepLine_shift (rs : List Record) (c : Record) (lt : Option String) (l : String) :
    stepLine ⟨rs, c, lt⟩ l =
      ⟨rs ++ (stepLine ⟨[], c, lt⟩ l).records,
       (stepLine ⟨[], c, lt⟩ l).current,
       (stepLine ⟨[], c, lt⟩ l).lastTag⟩ := by
  cases hm : matchTagLine l with
  | none =>
      cases lt with
      | none => simp [stepLine, hm]
      | some t =>
          by_cases hb : pyStrip l ≠ ""
          · cases hg : getTag c t with
            | none => simp [stepLine, hm, hb, hg]
            | some tv => cases tv <;> simp [stepLine, hm, hb, hg]
          · simp [stepLine, hm, hb]
  | some p =>
      obtain ⟨t, v⟩ := p
      by_cases ht : t = "ER"
      · simp [stepLine, hm, ht]
      · simp [stepLine, hm, ht]

theorem runLines_shift (rs : List Record) (c : Record) (lt : Option String)
    (ls : List String) :
    runLines ⟨rs, c, lt⟩ ls =
      ⟨rs ++ (runLines ⟨[], c, lt⟩ ls).records,
       (runLines ⟨[], c, lt⟩ ls).current,
       (runLines ⟨[], c, lt⟩ ls).lastTag⟩ := by
  induction ls generalizing rs c lt with
  | nil => simp [runLines]
  | cons l ls ih =>
      rw [runLines_cons, runLines_cons]
      rw [stepLine_shift rs c lt l]
      rw [ih]
      conv_rhs =>
        rw [show stepLine ⟨[], c, lt⟩ l
              = ⟨(stepLine ⟨[], c, lt⟩ l).records,
                 (stepLine ⟨[], c, lt⟩ l).current,
                 (stepLine ⟨[], c, lt⟩ l).lastTag⟩ from rfl,
            ih]
      simp [List.append_assoc]

theorem countStep_abs (st : PState) (l : String) :
    countStep (absState st) l = absState (stepLine st l) := by
  cases hm : matchTagLine l with
  | none =>
      cases hlt : st.lastTag with
      | none =>
          by_cases hb : pyStrip l ≠ "" <;>
            simp [countStep, stepLine, absState, hm, hlt, hb]
      | some t =>
          by_cases hb : pyStrip l ≠ ""
          · cases hg : getTag st.current t with
            | none =>
                simp [countStep, stepLine, absState, hm, hlt, hb, hg,
                  setTag_ne_nil, List.isEmpty_iff]
            | some tv =>
                cases tv <;>
                  simp [countStep, stepLine, absState, hm, hlt, hb, hg,
                    setTag_ne_nil, List.isEmpty_iff]
          · simp [countStep, stepLine, absState, hm, hlt, hb]
  | some p =>
      obtain ⟨t, v⟩ := p
      by_cases ht : t = "ER"
      · by_cases hc : st.current = [] <;>
          simp [countStep, stepLine, absState, hm, ht, hc, List.isEmpty_iff]
      · simp [countStep, stepLine, absState, hm, ht, add_value_ne_nil,
          List.isEmpty_iff]

theorem foldl_countStep_abs (st : PState) (ls : List String) :
    ls.foldl countStep (absState st) = absState (runLines st ls) := by
  induction ls generalizing st with
  | nil => rfl
  | cons l ls ih =>
      rw [runLines_cons]
      simp only [List.foldl_cons, countStep_abs st l]
      exact ih (stepLine st l)

/-- A block of plain tag lines (matched, non-ER) builds exactly the
`add_value`-fold of its tag/value pairs, and emits no record. -/
theorem runLines_tag_block (ls : List String) (rs : List Record) (c : Record)
    (lt : Option String)
    (h : ∀ l ∈ ls, ∃ t v, matchTagLine l = some (t, v) ∧ t ≠ "ER") :
    (runLines ⟨rs, c, lt⟩ ls).records = rs ∧
    (runLines ⟨rs, c, lt⟩ ls).current
      = (tagPairs ls).foldl (fun r p => add_value r p.1 p.2) c := by
  induction ls generalizing rs c lt with
  | nil => exact ⟨rfl, rfl⟩
  | cons l ls ih =>
      obtain ⟨t, v, hm, ht⟩ := h l (List.mem_cons_self l ls)
      have h2 : ∀ x ∈ ls, ∃ t v, matchTagLine x = some (t, v) ∧ t ≠ "ER" :=
        fun x hx => h x (List.mem_cons_of_mem l hx)
      have hstep : stepLine ⟨rs, c, lt⟩ l
          = ⟨rs, add_value c t (pyStrip v), some t⟩ := by
        unfold stepLine
        rw [hm]
        simp [ht]
      have hpairs : tagPairs (l :: ls) = (t, pyStrip v) :: tagPairs ls := by
        simp [tagPairs, hm]
      rw [runLines_cons, hstep, hpairs]
      simp only [List.foldl_cons]
      exact ih rs (add_value c t (pyStrip v)) (some t) h2

/-! ## Claim C1 and C2 theorems -/

/-- C1: for every input whose terminated records are exactly the `ER` tag
lines reached with a non-empty record buffer, `parse_ris_file` returns
exactly that many records (`erCount` counts those lines through the same
line discipline); every terminated block contributes its record at its
end-of-record marker's position (source order); and a final unterminated
block — any trailing lines containing no end-of-record tag line — is never
appended to the output. -/
theorem parse_ris_file_terminated_records
    (lines pre post extra : List String) (er : String)
    (hpre : ∀ l ∈ pre, isERLine l = false)
    (her : isERLine er = true)
    (hextra : ∀ l ∈ extra, isERLine l = false) :
    (parse_ris_file lines).length = erCount lines
    ∧ parse_ris_file (pre ++ er :: post)
        = (if buildCurrent pre = [] then [] else [buildCurrent pre]) ++ parse_ris_file post
    ∧ parse_ris_file (lines ++ extra) = parse_ris_file lines := by
  obtain ⟨v, hm⟩ : ∃ v, matchTagLine er = some ("ER", v) := by
    unfold isERLine at her
    cases hmm : matchTagLine er with
    | none => rw [hmm] at her; simp at her
    | some p =>
        obtain ⟨t, v⟩ := p
        rw [hmm] at her
        simp only [decide_eq_true_eq] at her
        exact ⟨v, by rw [her]⟩
  refine ⟨?_, ?_, ?_⟩
  · have h := foldl_countStep_abs ⟨[], [], none⟩ lines
    unfold erCount parse_ris_file
    rw [show (⟨0, false, false⟩ : CState) = absState ⟨[], [], none⟩ from rfl, h]
    rfl
  · unfold parse_ris_file
    rw [runLines_append, runLines_cons]
    have hrec : (runLines ⟨[], [], none⟩ pre).records = [] :=
      runLines_records_no_er _ _ hpre
    have hstep : stepLine (runLines ⟨[], [], none⟩ pre) er
        = ⟨(runLines ⟨[], [], none⟩ pre).records
            ++ (if (runLines ⟨[], [], none⟩ pre).current = [] then []
                else [(runLines ⟨[], [], none⟩ pre).current]),
           [], none⟩ := by
      simp [stepLine, hm]
    rw [hstep, hrec]
    simp only [List.nil_append]
    rw [runLines_shift]
    rfl
  · unfold parse_ris_file
    rw [runLines_append]
    exact runLines_records_no_er _ _ hextra

theorem parse_ris_file_terminated_records_witness :
    (parse_ris_file ["AU  - X", "ER  -"]).length = erCount ["AU  - X", "ER  -"]
    ∧ parse_ris_file (["TI  - B"] ++ "ER  -" :: [])
        = (if buildCurrent ["TI  - B"] = [] then [] else [buildCurrent ["TI  - B"]])
            ++ parse_ris_file []
    ∧ parse_ris_file (["AU  - X", "ER  -"] ++ ["AU  - Y"])
        = parse_ris_file ["AU  - X", "ER  -"] :=
  parse_ris_file_terminated_records ["AU  - X", "ER  -"] ["TI  - B"] [] ["AU  - Y"]
    "ER  -" (by decide) (by decide) (by decide)

/-- C2: folding the parser's `add_value` over the tag/value pairs of one
record stores a tag occurring once as a scalar and a tag occurring `k > 1`
times as the `k`-element list of its values in source order (`encodeOcc`
of the occurrence list `occVals`); moreover a record block of plain tag
lines closed by an end-of-record line parses to exactly that
`add_value`-fold of its tag/value pairs. -/
theorem add_value_scalar_or_list
    (ps : List (String × String)) (t : String) (lines : List String) (er : String)
    (hlines : ∀ l ∈ lines, ∃ tg v, matchTagLine l = some (tg, v) ∧ tg ≠ "ER")
    (her : isERLine er = true) :
    getTag (buildRecord ps) t = encodeOcc (occVals t ps)
    ∧ parse_ris_file (lines ++ [er])
        = (if buildRecord (tagPairs lines) = [] then []
           else [buildRecord (tagPairs lines)]) := by
  obtain ⟨v, hm⟩ : ∃ v, matchTagLine er = some ("ER", v) := by
    unfold isERLine at her
    cases hmm : matchTagLine er with
    | none => rw [hmm] at her; simp at her
    | some p =>
        obtain ⟨tg, v⟩ := p
        rw [hmm] at her
        simp only [decide_eq_true_eq] at her
        exact ⟨v, by rw [her]⟩
  constructor
  · unfold buildRecord
    rw [getTag_foldl_add_value]
    simp [getTag, combineOcc_none]
  · obtain ⟨hrec, hcur⟩ := runLines_tag_block lines [] [] none hlines
    unfold parse_ris_file
    rw [show lines ++ [er] = lines ++ er :: [] from rfl, runLines_append, runLines_cons]
    have hstep : stepLine (runLines ⟨[], [], none⟩ lines) er
        = ⟨(runLines ⟨[], [], none⟩ lines).records
            ++ (if (runLines ⟨[], [], none⟩ lines).current = [] then []
                else [(runLines ⟨[], [], none⟩ lines).current]),
           [], none⟩ := by
      simp [stepLine, hm]
    rw [hstep, hrec, hcur]
    simp only [List.nil_append]
    rfl

theorem add_value_scalar_or_list_witness :
    getTag (buildRecord [("AU", "First, A."), ("AU", "Second, B."), ("TI", "T")]) "AU"
      = encodeOcc (occVals "AU" [("AU", "First, A."), ("AU", "Second, B."), ("TI", "T")])
    ∧ parse_ris_file (["AU  - First, A.", "AU  - Second, B.", "TI  - T"] ++ ["ER  -"])
        = (if buildRecord (tagPairs ["AU  - First, A.", "AU  - Second, B.", "TI  - T"]) = []
           then []
           else [buildRecord (tagPairs ["AU  - First, A.", "AU  - Second, B.", "TI  - T"])]) :=
  add_value_scalar_or_list [("AU", "First, A."), ("AU", "Second, B."), ("TI", "T")] "AU"
    ["AU  - First, A.", "AU  - Second, B.", "TI  - T"] "ER  -"
    (by
      intro l hl
      simp only [List.mem_cons, List.not_mem_nil, or_false] at hl
      rcases hl with rfl | rfl | rfl
      · exact ⟨"AU", "First, A.", by decide⟩
      · exact ⟨"AU", "Second, B.", by decide⟩
      · exact ⟨"TI", "T", by decide⟩)
    (by decide)

theorem providerScan_eq_find (l : List (String × String)) (host : String) :
    providerScan l host = (l.find? (fun kv => pyContains host kv.1)).map Prod.snd := by
  induction l with
  | nil => rfl
  | cons kv rest ih =>
      obtain ⟨k, v⟩ := kv
      by_cases h : pyContains host k = true <;>
        simp [providerScan, List.find?, h, ih]

theorem yearSearch_empty : yearSearch "" = none := rfl

theorem yearFromTags_eq_firstSome (r : Record) (ks : List String) :
    yearFromTags r ks
      = (firstSome (ks.map (fun k => yearSearch (pyStrip (tagHead r k))))).getD "" := by
  induction ks with
  | nil => rfl
  | cons k ks ih =>
      by_cases h : pyStrip (tagHead r k) ≠ ""
      · cases hs : yearSearch (pyStrip (tagHead r k)) with
        | none => simp [yearFromTags, h, hs, firstSome, ih]
        | some m => simp [yearFromTags, h, hs, firstSome]
      · simp only [ne_eq, not_not] at h
        simp [yearFromTags, h, yearSearch_empty, firstSome, ih]

theorem doiChain_eq_table (d x : String) :
    (if strStarts d "10.1109" then "IEEE Xplore"
     else if strStarts d "10.1016" then "ScienceDirect"
     else if strStarts d "10.1007" then "SpringerLink"
     else if strStarts d "10.1002" then "Wiley Online Library"
     else if strStarts d "10.1145" then "ACM Digital Library"
     else x)
    = (match (DOI_PREFIX_TABLE.find? (fun kv => strStarts d kv.1)).map Prod.snd with
       | some l => l
       | none => x) := by
  by_cases h1 : strStarts d "10.1109" = true
  · simp [DOI_PREFIX_TABLE, List.find?, h1]
  · by_cases h2 : strStarts d "10.1016" = true
    · simp [DOI_PREFIX_TABLE, List.find?, h1, h2]
    · by_cases h3 : strStarts d "10.1007" = true
      · simp [DOI_PREFIX_TABLE, List.find?, h1, h2, h3]
      · by_cases h4 : strStarts d "10.1002" = true
        · simp [DOI_PREFIX_TABLE, List.find?, h1, h2, h3, h4]
        · by_cases h5 : strStarts d "10.1145" = true
          · simp [DOI_PREFIX_TABLE, List.find?, h1, h2, h3, h4, h5]
          · simp [DOI_PREFIX_TABLE, List.find?, h1, h2, h3, h4, h5]

theorem index_from_record_eq_indexSpec (r : Record) (fb : String) :
    index_from_record r fb = indexSpec r fb := by
  unfold index_from_record indexSpec
  have hdisc :
      (if pyStrip (tagHead r "UR") ≠ "" then
         match urlNetloc (pyStrip (tagHead r "UR")) with
         | some host => providerScan PROVIDER_MAP (pyLower host)
         | none => none
       else none)
      = (if pyStrip (tagHead r "UR") ≠ "" then
           match urlNetloc (pyStrip (tagHead r "UR")) with
           | some host =>
               (PROVIDER_MAP.find? (fun kv => pyContains (pyLower host) kv.1)).map Prod.snd
           | none => none
         else none) := by
    by_cases hu : pyStrip (tagHead r "UR") ≠ ""
    · rw [if_pos hu, if_pos hu]
      cases urlNetloc (pyStrip (tagHead r "UR")) with
      | none => rfl
      | some host => simp only [providerScan_eq_find]
    · rw [if_neg hu, if_neg hu]
  rw [hdisc]
  cases hE : (if pyStrip (tagHead r "UR") ≠ "" then
                match urlNetloc (pyStrip (tagHead r "UR")) with
                | some host =>
                    (PROVIDER_MAP.find? (fun kv => pyContains (pyLower host) kv.1)).map
                      Prod.snd
                | none => none
              else none) with
  | some l => rfl
  | none =>
      by_cases hd : doiOfRecord r ≠ ""
      · rw [if_pos hd, if_pos hd, doiChain_eq_table]
      · rw [if_neg hd, if_neg hd]

/-- C3: `index_from_record` resolves the Index label in strict precedence:
a non-empty URL tag's host (case-folded) is tested for substring
containment of each provider-map key in declared order and the first
hit's label returned, while a `ValueError` from URL parsing (modelled by
`urlNetloc` returning `none`, e.g. on a mismatched bracket) is swallowed
and falls through; otherwise a non-empty DOI's lowercase prefix is
tested against the fixed DOI-prefix table; otherwise the fallback is
cleaned (underscores to spaces, standalone `exports` removed
case-insensitively, trimmed, title-cased), with `"Unknown Source"` for an
empty cleaned fallback. In particular a record whose URL host contains
`dl.acm.org` resolves to the ACM Digital Library label, a record with
no URL whose DOI has prefix `10.1109` resolves to the IEEE Xplore
label, and a record whose URL raises (`http://[dl.acm.org/x`) resolves
through the fallback tier. -/
theorem index_from_record_precedence (r : Record) (fb : String) :
    index_from_record r fb = indexSpec r fb
    ∧ index_from_record
        [("UR", TagVal.scalar "https://dl.acm.org/doi/10.1145/3292500.3330701")] fb
        = "ACM Digital Library"
    ∧ index_from_record
        [("TI", TagVal.scalar "T"), ("DO", TagVal.scalar "10.1109/TSE.2020.1234567")] fb
        = "IEEE Xplore"
    ∧ index_from_record [] "ieee_exports" = "Ieee"
    ∧ index_from_record [] "" = "Unknown Source"
    ∧ index_from_record [("UR", TagVal.scalar "http://[dl.acm.org/x")] "ieee_exports"
        = "Ieee"
    ∧ urlNetloc "http://[dl.acm.org/x" = none :=
  ⟨index_from_record_eq_indexSpec r fb, rfl, rfl, rfl, rfl, rfl, rfl⟩

/-- C6: `year_from_any` scans the date tags in the fixed priority order
`PY`, `Y1`, `DA`, `DP`, returning the first tag's leftmost substring
matching a 4-digit number beginning with 19 or 20 (word-bounded), and the
empty string when no tag yields a match. In particular
`year_from_any {PY: "2015 Mar"} = "2015"` and
`year_from_any {DA: "no year here"} = ""`. -/
theorem year_from_any_priority (r : Record) :
    year_from_any r
      = (firstSome (["PY", "Y1", "DA", "DP"].map
          (fun k => yearSearch (pyStrip (tagHead r k))))).getD ""
    ∧ year_from_any [("PY", TagVal.scalar "2015 Mar")] = "2015"
    ∧ year_from_any [("DA", TagVal.scalar "no year here")] = ""
    ∧ yearSearch "since 12019, in 2021." = some "2021" :=
  ⟨yearFromTags_eq_firstSome r _, rfl, rfl, rfl⟩

/-! ### Lemmas: filter engine -/

theorem apply_filters_eq_filter (rows : List Row) (minY maxY : Option Nat)
    (terms : List String) :
    apply_filters rows minY maxY terms = rows.filter (amendedKeepPred minY maxY terms) := by
  unfold apply_filters
  by_cases hb : (minY.isSome || maxY.isSome) = true
  · by_cases ht : (!terms.isEmpty) = true
    · rw [if_pos hb, if_pos ht, List.filter_filter]
      apply List.filter_congr
      intro r _
      simp [amendedKeepPred, matches_only_filter, hb]
      exact Bool.and_comm _ _
    · rw [if_pos hb, if_neg ht]
      apply List.filter_congr
      intro r _
      have hts : terms = [] := List.isEmpty_iff.mp (by simpa using ht)
      simp [amendedKeepPred, hts, hb]
  · by_cases ht : (!terms.isEmpty) = true
    · rw [if_neg hb, if_pos ht]
      apply List.filter_congr
      intro r _
      simp only [Bool.not_eq_true] at hb
      simp [amendedKeepPred, matches_only_filter, hb]
    · rw [if_neg hb, if_neg ht]
      simp only [Bool.not_eq_true] at hb
      have hts : terms = [] := List.isEmpty_iff.mp (by simpa using ht)
      have : rows.filter (amendedKeepPred minY maxY terms) = rows := by
        apply List.filter_eq_self.mpr
        intro r _
        simp [amendedKeepPred, hts, hb]
      rw [this]

/-- C4 (amended): a row survives `apply_filters` iff — when any year bound
is set — its Year field, after trimming surrounding whitespace, is a pure
non-empty digit string whose value lies within the set inclusive bounds,
and every keyword term occurs case-insensitively in the space-joined
Title/DOI/Author Name/Index haystack (empty term list always passes); the
survivors are an order-preserving subsequence of the input. -/
theorem apply_filters_keeps_iff (rows : List Row) (minY maxY : Option Nat)
    (terms : List String) :
    apply_filters rows minY maxY terms = rows.filter (amendedKeepPred minY maxY terms)
    ∧ (apply_filters rows minY maxY terms).Sublist rows := by
  refine ⟨apply_filters_eq_filter rows minY maxY terms, ?_⟩
  rw [apply_filters_eq_filter]
  exact List.filter_sublist rows

/-- C4 counterexample: the claim tests the Year field untrimmed, but the
code trims it first (`str(y or "").strip()`), so the row with Year
`" 2015 "` is kept by `apply_filters` although the claim's predicate
rejects it. -/
theorem apply_filters_untrimmed_year_counterexample :
    apply_filters [spacedYearRow] (some 2000) (some 2020) [] = [spacedYearRow]
    ∧ claimKeepPred (some 2000) (some 2020) [] spacedYearRow = false := by
  constructor
  · decide
  · decide

/-! ### Lemmas: deduplicator -/

theorem dedupByAux_sublist {α : Type} [DecidableEq α] (key : Row → α) (seen : List α)
    (xs : List Row) : (dedupByAux key seen xs).Sublist xs := by
  induction xs generalizing seen with
  | nil => simp [dedupByAux]
  | cons x xs ih =>
      by_cases h : key x ∈ seen
      · simp only [dedupByAux, if_pos h]
        exact (ih seen).cons x
      · simp only [dedupByAux, if_neg h]
        exact (ih (key x :: seen)).cons₂ x

theorem keepFirstByKey_nil {α : Type} [DecidableEq α] (key : Row → α) :
    keepFirstByKey key [] = [] := by
  rw [keepFirstByKey.eq_def]

theorem keepFirstByKey_cons {α : Type} [DecidableEq α] (key : Row → α) (r : Row)
    (rs : List Row) :
    keepFirstByKey key (r :: rs)
      = r :: keepFirstByKey key (rs.filter (fun x => decide (key x ≠ key r))) := by
  rw [keepFirstByKey.eq_def]

theorem dedupByAux_eq_keepFirst {α : Type} [DecidableEq α] (key : Row → α)
    (seen : List α) (xs : List Row) :
    dedupByAux key seen xs
      = keepFirstByKey key (xs.filter (fun x => !decide (key x ∈ seen))) := by
  induction xs generalizing seen with
  | nil => simp [dedupByAux, keepFirstByKey_nil]
  | cons x xs ih =>
      by_cases h : key x ∈ seen
      · have hfil : (x :: xs).filter (fun y => !decide (key y ∈ seen))
            = xs.filter (fun y => !decide (key y ∈ seen)) := by simp [h]
        rw [hfil]
        simp only [dedupByAux, if_pos h]
        exact ih seen
      · have hfil : (x :: xs).filter (fun y => !decide (key y ∈ seen))
            = x :: xs.filter (fun y => !decide (key y ∈ seen)) := by simp [h]
        rw [hfil, keepFirstByKey_cons, List.filter_filter]
        simp only [dedupByAux, if_neg h]
        congr 1
        rw [ih (key x :: seen)]
        congr 1
        apply List.filter_congr
        intro a _
        by_cases h1 : key a = key x <;> by_cases h2 : key a ∈ seen <;>
          simp [h1, h2, List.mem_cons]

theorem dedupBy_eq_keepFirst {α : Type} [DecidableEq α] (key : Row → α)
    (xs : List Row) : dedupBy key xs = keepFirstByKey key xs := by
  rw [dedupBy, dedupByAux_eq_keepFirst]
  congr 1
  apply List.filter_eq_self.mpr
  intro a _
  simp

theorem dedupByAux_keys_nodup {α : Type} [DecidableEq α] (key : Row → α)
    (seen : List α) (xs : List Row) :
    ((dedupByAux key seen xs).map key).Nodup
    ∧ ∀ a ∈ (dedupByAux key seen xs).map key, a ∉ seen := by
  induction xs generalizing seen with
  | nil => simp [dedupByAux]
  | cons x xs ih =>
      by_cases h : key x ∈ seen
      · simp only [dedupByAux, if_pos h]
        exact ih seen
      · simp only [dedupByAux, if_neg h, List.map_cons]
        obtain ⟨hnd, hni⟩ := ih (key x :: seen)
        refine ⟨List.nodup_cons.mpr ⟨?_, hnd⟩, ?_⟩
        · intro hmem
          exact hni _ hmem (List.mem_cons_self _ _)
        · intro a ha
          rcases List.mem_cons.mp ha with rfl | ha'
          · exact h
          · intro hs
            exact hni a ha' (List.mem_cons_of_mem _ hs)

theorem dedupByAux_of_nodup {α : Type} [DecidableEq α] (key : Row → α)
    (seen : List α) (xs : List Row)
    (h1 : (xs.map key).Nodup) (h2 : ∀ a ∈ xs.map key, a ∉ seen) :
    dedupByAux key seen xs = xs := by
  induction xs generalizing seen with
  | nil => rfl
  | cons x xs ih =>
      have hx : key x ∉ seen := h2 _ (by simp)
      rw [dedupByAux, if_neg hx]
      congr 1
      apply ih
      · exact (List.nodup_cons.mp (by simpa using h1)).2
      · intro a ha
        intro hs
        rcases List.mem_cons.mp hs with rfl | hs'
        · exact (List.nodup_cons.mp (by simpa using h1)).1 ha
        · exact h2 a (List.mem_cons_of_mem _ ha) hs'

theorem dedupBy_keys_nodup {α : Type} [DecidableEq α] (key : Row → α)
    (xs : List Row) : ((dedupBy key xs).map key).Nodup :=
  (dedupByAux_keys_nodup key [] xs).1

theorem dedupBy_of_nodup {α : Type} [DecidableEq α] (key : Row → α)
    (xs : List Row) (h1 : (xs.map key).Nodup) : dedupBy key xs = xs :=
  dedupByAux_of_nodup key [] xs h1 (by simp)

theorem deduplicate_eq_parts (rows : List Row) :
    deduplicate rows
      = dedupBy (fun r => r.DOI) (rows.filter hasDoi)
        ++ dedupBy tripleKey (rows.filter (fun r => !hasDoi r)) := by
  unfold deduplicate
  by_cases h : rows.isEmpty = true
  · have : rows = [] := List.isEmpty_iff.mp h
    subst this
    simp [dedupBy, dedupByAux]
  · rw [if_neg h]

/-- C5: `deduplicate` partitions on non-empty trimmed DOI, keeps the
first-encountered row per distinct DOI among DOI rows and per distinct
`(Title, Year, Author Name)` triple among the rest (`keepFirstByKey` is
the spec's first-occurrence recursion), returns the DOI part followed by
the non-DOI part with each part an order-preserving subsequence of its
partition, and the claim's four-row example yields exactly the two
first-encountered rows. -/
theorem deduplicate_first_per_key (rows : List Row) :
    deduplicate rows
      = keepFirstByKey (fun r => r.DOI) (rows.filter hasDoi)
        ++ keepFirstByKey tripleKey (rows.filter (fun r => !hasDoi r))
    ∧ (dedupBy (fun r => r.DOI) (rows.filter hasDoi)).Sublist (rows.filter hasDoi)
    ∧ (dedupBy tripleKey (rows.filter (fun r => !hasDoi r))).Sublist
        (rows.filter (fun r => !hasDoi r))
    ∧ deduplicate [doiDupRow, doiDupRow, tripleDupRow, tripleDupRow]
        = [doiDupRow, tripleDupRow] := by
  refine ⟨?_, dedupByAux_sublist _ _ _, dedupByAux_sublist _ _ _, by decide⟩
  rw [deduplicate_eq_parts, dedupBy_eq_keepFirst, dedupBy_eq_keepFirst]

/-- C9: deduplication is idempotent — applying `deduplicate` twice yields
the same rows in the same order as applying it once. -/
theorem deduplicate_idempotent (rows : List Row) :
    deduplicate (deduplicate rows) = deduplicate rows := by
  rw [deduplicate_eq_parts rows]
  set A := dedupBy (fun r => r.DOI) (rows.filter hasDoi) with hA
  set B := dedupBy tripleKey (rows.filter (fun r => !hasDoi r)) with hB
  have hAmem : ∀ r ∈ A, hasDoi r = true := by
    intro r hr
    have := (dedupByAux_sublist (fun r => r.DOI) [] (rows.filter hasDoi)).subset hr
    exact (List.mem_filter.mp this).2
  have hBmem : ∀ r ∈ B, hasDoi r = false := by
    intro r hr
    have := (dedupByAux_sublist tripleKey [] (rows.filter (fun r => !hasDoi r))).subset hr
    have := (List.mem_filter.mp this).2
    simpa using this
  have hfA : (A ++ B).filter hasDoi = A := by
    rw [List.filter_append]
    have h1 : A.filter hasDoi = A := List.filter_eq_self.mpr hAmem
    have h2 : B.filter hasDoi = [] := by
      apply List.filter_eq_nil_iff.mpr
      intro r hr
      simp [hBmem r hr]
    rw [h1, h2, List.append_nil]
  have hfB : (A ++ B).filter (fun r => !hasDoi r) = B := by
    rw [List.filter_append]
    have h1 : A.filter (fun r => !hasDoi r) = [] := by
      apply List.filter_eq_nil_iff.mpr
      intro r hr
      simp [hAmem r hr]
    have h2 : B.filter (fun r => !hasDoi r) = B := by
      apply List.filter_eq_self.mpr
      intro r hr
      simp [hBmem r hr]
    rw [h1, h2, List.nil_append]
  rw [deduplicate_eq_parts (A ++ B), hfA, hfB,
    dedupBy_of_nodup _ _ (dedupBy_keys_nodup _ _),
    dedupBy_of_nodup _ _ (dedupBy_keys_nodup _ _)]

/-! ### Lemmas: orchestrator raw view -/

theorem deduplicate_nil : deduplicate [] = [] := rfl

theorem processGroup_dedup (g : List Row) (minY maxY : Option Nat)
    (terms : List String) :
    processGroup g minY maxY terms true
      = deduplicate (apply_filters g minY maxY terms) := by
  unfold processGroup
  by_cases h : (apply_filters g minY maxY terms).isEmpty = true
  · have he : apply_filters g minY maxY terms = [] := List.isEmpty_iff.mp h
    simp [he, deduplicate_nil]
  · simp [h]

theorem deduplicate_singleton (r : Row) : deduplicate [r] = [r] := by
  by_cases h : hasDoi r = true <;>
    simp [deduplicate, dedupBy, dedupByAux, List.filter, h]

theorem deduplicate_pair (r : Row) : deduplicate [r, r] = [r] := by
  by_cases h : hasDoi r = true <;>
    simp [deduplicate, dedupBy, dedupByAux, List.filter, h, List.mem_singleton]

/-- C10 (implicit): with deduplication enabled the orchestrator
deduplicates each group's filtered rows separately and concatenates the
results into the raw view, so a row duplicated across two groups is
retained twice in the raw view, while a single `deduplicate` over the
combined rows would collapse the pair. -/
theorem rawView_dedups_per_group (gs : List (List Row)) (minY maxY : Option Nat)
    (terms : List String) (r1 r2 : Row) :
    rawView gs minY maxY terms true
      = (gs.map (fun g => deduplicate (apply_filters g minY maxY terms))).flatten
    ∧ rawView [[r1], [r2]] none none [] true = [r1, r2]
    ∧ deduplicate [r1, r1] = [r1] := by
  refine ⟨?_, ?_, deduplicate_pair r1⟩
  · unfold rawView
    congr 1
    apply List.map_congr_left
    intro g _
    exact processGroup_dedup g minY maxY terms
  · have h1 : apply_filters [r1] none none [] = [r1] := rfl
    have h2 : apply_filters [r2] none none [] = [r2] := rfl
    simp [rawView, processGroup_dedup, h1, h2, deduplicate_singleton]

theorem space_not_digit (c : Char) (h : pyIsSpace c = true) : c.isDigit = false := by
  simp only [pyIsSpace, Bool.or_eq_true, decide_eq_true_eq] at h
  rcases h with ((((rfl | rfl) | rfl) | rfl) | rfl) | rfl <;> decide

theorem digit_not_space (c : Char) (h : c.isDigit = true) : pyIsSpace c = false := by
  cases hs : pyIsSpace c
  · rfl
  · rw [space_not_digit c hs] at h
    cases h

theorem dropWhile_append_all (p : Char → Bool) (w l : List Char)
    (hw : ∀ c ∈ w, p c = true) :
    List.dropWhile p (w ++ l) = List.dropWhile p l := by
  induction w with
  | nil => rfl
  | cons a w ih =>
      have ha := hw a (by simp)
      simp only [List.cons_append, List.dropWhile_cons, ha, if_true]
      exact ih (fun c hc => hw c (by simp [hc]))

theorem length_eq_four_exists (d : List Char) (h : d.length = 4) :
    ∃ a b c e, d = [a, b, c, e] := by
  rcases d with _ | ⟨a, _ | ⟨b, _ | ⟨c, _ | ⟨e, _ | ⟨f, t⟩⟩⟩⟩⟩
  · simp at h
  · simp at h
  · simp at h
  · simp at h
  · exact ⟨a, b, c, e, rfl⟩
  · simp [List.length_cons] at h

theorem yearRangeMatch_iff_form (s : String) (y1 y2 : Nat) :
    yearRangeMatch s.toList = some (y1, y2) ↔ yearFormSpec s y1 y2 := by
  constructor
  · intro h
    unfold yearRangeMatch at h
    split at h
    all_goals try (exact Option.noConfusion h)
    rename_i a b c d rest heq
    split at h
    all_goals try (exact Option.noConfusion h)
    rename_i hdig
    split at h
    all_goals try (exact Option.noConfusion h)
    rename_i r2 heq2
    split at h
    all_goals try (exact Option.noConfusion h)
    rename_i e f g hc rest2 heq3
    split at h
    all_goals try (exact Option.noConfusion h)
    rename_i hdig2
    have hval : digitsVal [a, b, c, d] = y1 ∧ digitsVal [e, f, g, hc] = y2 := by
      injection h with h'
      exact ⟨congrArg Prod.fst h', congrArg Prod.snd h'⟩
    have hall2 := (Bool.and_eq_true _ _).mp hdig2
    have e1 : s.toList = s.toList.takeWhile pyIsSpace ++ (a :: b :: c :: d :: rest) := by
      rw [← heq, List.takeWhile_append_dropWhile]
    have e2 : rest = rest.takeWhile pyIsSpace ++ ('-' :: r2) := by
      rw [← heq2, List.takeWhile_append_dropWhile]
    have e3 : r2 = r2.takeWhile pyIsSpace ++ (e :: f :: g :: hc :: rest2) := by
      rw [← heq3, List.takeWhile_append_dropWhile]
    refine ⟨s.toList.takeWhile pyIsSpace, [a, b, c, d], rest.takeWhile pyIsSpace,
      r2.takeWhile pyIsSpace, [e, f, g, hc], rest2, ?_, ?_, ?_, ?_, ?_, ?_, ?_,
      hval.1, ?_, ?_, hval.2⟩
    · symm
      simp only [List.cons_append, List.nil_append, List.append_assoc]
      rw [← e3, ← e2, ← e1]
    · exact fun c hc => List.mem_takeWhile_imp hc
    · exact fun c hc => List.mem_takeWhile_imp hc
    · exact fun c hc => List.mem_takeWhile_imp hc
    · intro c hc
      exact List.dropWhile_eq_nil_iff.mp (List.isEmpty_iff.mp hall2.2) c hc
    · rfl
    · exact fun x hx => (List.all_eq_true).mp hdig x hx
    · rfl
    · exact fun x hx => (List.all_eq_true).mp hall2.1 x hx
  · rintro ⟨w0, d1, w1, w2, d2, w3, hs, hw0, hw1, hw2, hw3, hd1len, hd1dig, hd1val,
      hd2len, hd2dig, hd2val⟩
    obtain ⟨a1, a2, a3, a4, rfl⟩ := length_eq_four_exists d1 hd1len
    obtain ⟨b1, b2, b3, b4, rfl⟩ := length_eq_four_exists d2 hd2len
    have ha1 : pyIsSpace a1 = false := digit_not_space a1 (hd1dig a1 (by simp))
    have hb1 : pyIsSpace b1 = false := digit_not_space b1 (hd2dig b1 (by simp))
    have hdash : pyIsSpace '-' = false := by decide
    have key : s.toList.dropWhile pyIsSpace
        = a1 :: a2 :: a3 :: a4 :: (w1 ++ ('-' :: (w2 ++ ([b1, b2, b3, b4] ++ w3)))) := by
      rw [hs, dropWhile_append_all pyIsSpace w0 _ hw0]
      simp [List.dropWhile_cons, ha1]
    have key2 : (w1 ++ ('-' :: (w2 ++ ([b1, b2, b3, b4] ++ w3)))).dropWhile pyIsSpace
        = '-' :: (w2 ++ ([b1, b2, b3, b4] ++ w3)) := by
      rw [dropWhile_append_all pyIsSpace w1 _ hw1]
      simp [List.dropWhile_cons, hdash]
    have key3 : (w2 ++ ([b1, b2, b3, b4] ++ w3)).dropWhile pyIsSpace
        = b1 :: b2 :: b3 :: b4 :: w3 := by
      rw [dropWhile_append_all pyIsSpace w2 _ hw2]
      simp [List.dropWhile_cons, hb1]
    have key4 : (w3.dropWhile pyIsSpace).isEmpty = true := by
      rw [List.dropWhile_eq_nil_iff.mpr hw3]
      rfl
    have hdig1 : ([a1, a2, a3, a4].all Char.isDigit) = true :=
      List.all_eq_true.mpr hd1dig
    have hdig2 : ([b1, b2, b3, b4].all Char.isDigit) = true :=
      List.all_eq_true.mpr hd2dig
    unfold yearRangeMatch
    rw [key]
    simp only [List.cons_append, List.nil_append] at key2 key3 ⊢
    simp [hdig1, key2, key3, hdig2, key4, hd1val, hd2val]

/-- C7 (amended): `parse_year_range` returns `(None, None)` exactly on
strings that strip to empty; on a string matching the year-range regex —
four digits, a dash, four digits, with optional whitespace both around
the string *and around the dash* — it returns the two integers ordered
(swapped when the first exceeds the second); every other non-empty
string raises the format error. `yearRangeMatch` is proved equivalent to
the declarative decomposition `yearFormSpec`, and the claim's two
examples are evaluated. -/
theorem parse_year_range_characterization (s : String) (y1 y2 : Nat) :
    parse_year_range s
      = (if pyStrip s = "" then .ok (none, none)
         else
           match yearRangeMatch (pyStrip s).toList with
           | some (a, b) => .ok (some (min a b), some (max a b))
           | none => .error "Year filter must look like 2007-2017 (or empty).")
    ∧ (yearRangeMatch s.toList = some (y1, y2) ↔ yearFormSpec s y1 y2)
    ∧ parse_year_range "2017-2007" = .ok (some 2007, some 2017)
    ∧ parse_year_range "abc" = .error "Year filter must look like 2007-2017 (or empty)." := by
  refine ⟨?_, yearRangeMatch_iff_form s y1 y2, rfl, rfl⟩
  unfold parse_year_range
  by_cases hs : pyStrip s = ""
  · rw [if_pos hs, if_pos hs]
  · rw [if_neg hs, if_neg hs]
    cases hm : yearRangeMatch (pyStrip s).toList with
    | none => rfl
    | some p =>
        obtain ⟨a, b⟩ := p
        by_cases hab : a > b
        · have h1 : min a b = b := Nat.min_eq_right (Nat.le_of_lt hab)
          have h2 : max a b = a := Nat.max_eq_left (Nat.le_of_lt hab)
          simp [hab, h1, h2]
        · have hle : a ≤ b := Nat.le_of_not_lt hab
          simp [hab, Nat.min_eq_left hle, Nat.max_eq_right hle]

/-- C7 counterexample: `"2007 - 2017"` is non-empty and not of the
claim's literal `YYYY-YYYY`-with-surrounding-whitespace form (the regex
also allows whitespace around the dash), yet the code parses it instead
of raising the format error. -/
theorem parse_year_range_inner_whitespace_counterexample :
    parse_year_range "2007 - 2017" = .ok (some 2007, some 2017)
    ∧ strictYearRangeForm "2007 - 2017" = false
    ∧ pyStrip "2007 - 2017" ≠ "" := by
  refine ⟨rfl, by decide, by decide⟩

/-! ### Lemmas: the lexicographic orders of the group sort -/

theorem strLtB_irrefl : ∀ as : List Char, strLtB as as = false := by
  intro as
  induction as with
  | nil => rfl
  | cons a as ih => simp [strLtB, ih]

theorem strLtB_asymm : ∀ as bs : List Char,
    strLtB as bs = true → strLtB bs as = false := by
  intro as
  induction as with
  | nil =>
      intro bs h
      cases bs with
      | nil => rfl
      | cons b bs => rfl
  | cons a as ih =>
      intro bs h
      cases bs with
      | nil => exact Bool.noConfusion h
      | cons b bs =>
          simp only [strLtB, Bool.or_eq_true, Bool.and_eq_true, decide_eq_true_eq] at h
          simp only [strLtB, Bool.or_eq_false_iff, Bool.and_eq_false_iff,
            decide_eq_false_iff_not]
          rcases h with h | ⟨rfl, h⟩
          · exact ⟨lt_asymm h, Or.inl (fun he => absurd (he ▸ h) (lt_irrefl _))⟩
          · exact ⟨lt_irrefl a, Or.inr (ih bs h)⟩

theorem strLtB_trans : ∀ as bs cs : List Char,
    strLtB as bs = true → strLtB bs cs = true → strLtB as cs = true := by
  intro as
  induction as with
  | nil =>
      intro bs cs h1 h2
      cases bs with
      | nil => exact h2
      | cons b bs =>
          cases cs with
          | nil => cases h2
          | cons c cs => rfl
  | cons a as ih =>
      intro bs cs h1 h2
      cases bs with
      | nil => cases h1
      | cons b bs =>
          cases cs with
          | nil => cases h2
          | cons c cs =>
              simp only [strLtB, Bool.or_eq_true, Bool.and_eq_true,
                decide_eq_true_eq] at h1 h2 ⊢
              rcases h1 with h1 | ⟨rfl, h1⟩
              · rcases h2 with h2 | ⟨rfl, h2⟩
                · exact Or.inl (lt_trans h1 h2)
                · exact Or.inl h1
              · rcases h2 with h2 | ⟨rfl, h2⟩
                · exact Or.inl h2
                · exact Or.inr ⟨rfl, ih bs cs h1 h2⟩

theorem strLtB_conn : ∀ as bs : List Char,
    strLtB as bs = false → strLtB bs as = false → as = bs := by
  intro as
  induction as with
  | nil =>
      intro bs h1 h2
      cases bs with
      | nil => rfl
      | cons b bs => cases h1
  | cons a as ih =>
      intro bs h1 h2
      cases bs with
      | nil => cases h2
      | cons b bs =>
          simp only [strLtB, Bool.or_eq_false_iff, Bool.and_eq_false_iff,
            decide_eq_false_iff_not] at h1 h2
          have hab : a = b := le_antisymm (le_of_not_lt h2.1) (le_of_not_lt h1.1)
          subst hab
          have hr1 : strLtB as bs = false := by
            rcases h1.2 with h | h
            · exact absurd rfl h
            · exact h
          have hr2 : strLtB bs as = false := by
            rcases h2.2 with h | h
            · exact absurd rfl h
            · exact h
          rw [ih bs hr1 hr2]

theorem pyKeyLt_none_none (h1 h2 : String) :
    pyKeyLt (none, h1) (none, h2) = strLtB h1.toList h2.toList := by
  simp [pyKeyLt]

theorem pyKeyLt_some_none (a : Nat) (h1 h2 : String) :
    pyKeyLt (some a, h1) (none, h2) = true := by
  simp [pyKeyLt]

theorem pyKeyLt_none_some (a : Nat) (h1 h2 : String) :
    pyKeyLt (none, h1) (some a, h2) = false := by
  simp [pyKeyLt]

theorem pyKeyLt_some_some (a b : Nat) (h1 h2 : String) :
    pyKeyLt (some a, h1) (some b, h2)
      = (decide (a < b) || (a == b && strLtB h1.toList h2.toList)) := by
  simp [pyKeyLt]

theorem string_eq_of_toList_eq {s t : String} (h : s.toList = t.toList) : s = t := by
  cases s
  cases t
  exact congrArg String.mk (by simpa [String.toList] using h)

theorem pyKeyLt_asymm (x y : Option Nat × String) (h : pyKeyLt x y = true) :
    pyKeyLt y x = false := by
  obtain ⟨x1, hx⟩ := x
  obtain ⟨y1, hy⟩ := y
  cases x1 with
  | none =>
      cases y1 with
      | none =>
          rw [pyKeyLt_none_none] at h
          rw [pyKeyLt_none_none]
          exact strLtB_asymm _ _ h
      | some b =>
          rw [pyKeyLt_none_some] at h
          exact absurd h (by simp)
  | some a =>
      cases y1 with
      | none => rw [pyKeyLt_none_some]
      | some b =>
          rw [pyKeyLt_some_some] at h
          rw [pyKeyLt_some_some]
          simp only [Bool.or_eq_true, Bool.and_eq_true, decide_eq_true_eq,
            beq_iff_eq] at h
          simp only [Bool.or_eq_false_iff, Bool.and_eq_false_iff,
            decide_eq_false_iff_not, beq_eq_false_iff_ne, ne_eq]
          rcases h with h | ⟨rfl, h⟩
          · exact ⟨Nat.lt_asymm h, Or.inl (fun he => absurd (he ▸ h) (lt_irrefl _))⟩
          · exact ⟨lt_irrefl a, Or.inr (strLtB_asymm _ _ h)⟩

theorem pyKeyLt_trans (x y z : Option Nat × String) (h1 : pyKeyLt x y = true)
    (h2 : pyKeyLt y z = true) : pyKeyLt x z = true := by
  obtain ⟨x1, hx⟩ := x
  obtain ⟨y1, hy⟩ := y
  obtain ⟨z1, hz⟩ := z
  cases x1 with
  | none =>
      cases y1 with
      | none =>
          cases z1 with
          | none =>
              rw [pyKeyLt_none_none] at h1 h2 ⊢
              exact strLtB_trans _ _ _ h1 h2
          | some c =>
              rw [pyKeyLt_none_some] at h2
              exact absurd h2 (by simp)
      | some b =>
          rw [pyKeyLt_none_some] at h1
          exact absurd h1 (by simp)
  | some a =>
      cases z1 with
      | none => rw [pyKeyLt_some_none]
      | some c =>
          cases y1 with
          | none =>
              rw [pyKeyLt_none_some] at h2
              exact absurd h2 (by simp)
          | some b =>
              rw [pyKeyLt_some_some] at h1 h2 ⊢
              simp only [Bool.or_eq_true, Bool.and_eq_true, decide_eq_true_eq,
                beq_iff_eq] at h1 h2 ⊢
              rcases h1 with h1 | ⟨rfl, h1⟩
              · rcases h2 with h2 | ⟨rfl, h2⟩
                · exact Or.inl (Nat.lt_trans h1 h2)
                · exact Or.inl h1
              · rcases h2 with h2 | ⟨rfl, h2⟩
                · exact Or.inl h2
                · exact Or.inr ⟨rfl, strLtB_trans _ _ _ h1 h2⟩

theorem pyKeyLt_conn (x y : Option Nat × String) (h1 : pyKeyLt x y = false)
    (h2 : pyKeyLt y x = false) : x = y := by
  obtain ⟨x1, hx⟩ := x
  obtain ⟨y1, hy⟩ := y
  cases x1 with
  | none =>
      cases y1 with
      | none =>
          rw [pyKeyLt_none_none] at h1 h2
          rw [string_eq_of_toList_eq (strLtB_conn _ _ h1 h2)]
      | some b =>
          rw [pyKeyLt_some_none] at h2
          exact absurd h2 (by simp)
  | some a =>
      cases y1 with
      | none =>
          rw [pyKeyLt_some_none] at h1
          exact absurd h1 (by simp)
      | some b =>
          rw [pyKeyLt_some_some] at h1 h2
          simp only [Bool.or_eq_false_iff, Bool.and_eq_false_iff,
            decide_eq_false_iff_not, beq_eq_false_iff_ne, ne_eq] at h1 h2
          have hab : a = b :=
            Nat.le_antisymm (Nat.le_of_not_lt h2.1) (Nat.le_of_not_lt h1.1)
          subst hab
          have hs1 : strLtB hx.toList hy.toList = false := by
            rcases h1.2 with h | h
            · exact absurd rfl h
            · exact h
          have hs2 : strLtB hy.toList hx.toList = false := by
            rcases h2.2 with h | h
            · exact absurd rfl h
            · exact h
          rw [string_eq_of_toList_eq (strLtB_conn _ _ hs1 hs2)]

instance : IsTotal (Option Nat × String) grpLe :=
  ⟨by
    intro x y
    unfold grpLe
    cases hxy : pyKeyLt x y with
    | false => exact Or.inr rfl
    | true => exact Or.inl (pyKeyLt_asymm x y hxy)⟩

instance : IsTrans (Option Nat × String) grpLe :=
  ⟨by
    intro x y z h1 h2
    unfold grpLe at h1 h2 ⊢
    cases hzx : pyKeyLt z x with
    | false => rfl
    | true =>
        cases hxy : pyKeyLt x y with
        | false =>
            have hxy' := pyKeyLt_conn x y hxy h1
            rw [hxy'] at hzx
            exact absurd hzx (by simp [h2])
        | true =>
            have := pyKeyLt_trans z x y hzx hxy
            exact absurd this (by simp [h2])⟩

theorem grpLe_iff_groupLE (x y : Option Nat × String) : grpLe x y ↔ groupLE x y := by
  obtain ⟨x1, hx⟩ := x
  obtain ⟨y1, hy⟩ := y
  cases x1 with
  | none =>
      cases y1 with
      | none =>
          unfold grpLe groupLE alphaLe
          rw [pyKeyLt_none_none]
          constructor
          · intro h
            cases hlt : strLtB hx.toList hy.toList with
            | true => exact Or.inl (by simpa [String.toList] using hlt)
            | false => exact Or.inr (string_eq_of_toList_eq (strLtB_conn _ _ hlt h))
          · rintro (h | rfl)
            · exact strLtB_asymm _ _ h
            · exact strLtB_irrefl _
      | some b =>
          unfold grpLe groupLE
          rw [pyKeyLt_some_none]
          simp
  | some a =>
      cases y1 with
      | none =>
          unfold grpLe groupLE
          rw [pyKeyLt_none_some]
          simp
      | some b =>
          unfold grpLe groupLE alphaLe
          rw [pyKeyLt_some_some]
          simp only [Bool.or_eq_false_iff, Bool.and_eq_false_iff,
            decide_eq_false_iff_not, beq_eq_false_iff_ne, ne_eq]
          constructor
          · rintro ⟨hnlt, hrest⟩
            rcases Nat.lt_trichotomy a b with h | h | h
            · exact Or.inl h
            · subst h
              refine Or.inr ⟨rfl, ?_⟩
              have hs : strLtB hy.toList hx.toList = false := by
                rcases hrest with h | h
                · exact absurd rfl h
                · exact h
              cases hlt : strLtB hx.toList hy.toList with
              | true => exact Or.inl rfl
              | false => exact Or.inr (string_eq_of_toList_eq (strLtB_conn _ _ hlt hs))
            · exact absurd h hnlt
          · rintro (h | ⟨rfl, halpha⟩)
            · exact ⟨Nat.lt_asymm h, Or.inl (fun he => absurd (he ▸ h) (lt_irrefl _))⟩
            · refine ⟨lt_irrefl a, Or.inr ?_⟩
              rcases halpha with h | rfl
              · exact strLtB_asymm _ _ h
              · exact strLtB_irrefl _

theorem buildGroupsStep_headers (acc : List ((Option Nat × String) × List String))
    (f : String) (hacc : (acc.map (fun e => e.1.2)).Nodup) :
    ((buildGroupsStep acc f).map (fun e => e.1.2)).Nodup := by
  unfold buildGroupsStep
  by_cases hin : acc.any (fun e => e.1.2 = (extract_group_header f).2) = true
  · rw [if_pos hin]
    have : ((acc.map (fun e =>
        if e.1.2 = (extract_group_header f).2 then (e.1, e.2 ++ [f]) else e)).map
          (fun e => e.1.2)) = acc.map (fun e => e.1.2) := by
      rw [List.map_map]
      apply List.map_congr_left
      intro e _
      by_cases he : e.1.2 = (extract_group_header f).2 <;> simp [he]
    rw [this]
    exact hacc
  · rw [if_neg hin]
    have hnotmem : (extract_group_header f).2 ∉ acc.map (fun e => e.1.2) := by
      intro hm
      obtain ⟨e, he, heq⟩ := List.mem_map.mp hm
      exact hin (List.any_eq_true.mpr ⟨e, he, by simp [heq]⟩)
    simp only [List.map_append, List.map_cons, List.map_nil]
    rw [List.nodup_append]
    exact ⟨hacc, List.nodup_singleton _, by
      intro a ha hb
      simp only [List.mem_singleton] at hb
      exact hnotmem (hb ▸ ha)⟩

theorem buildGroups_headers_nodup (files : List String) :
    ((buildGroups files).map (fun e => e.1.2)).Nodup := by
  suffices h : ∀ acc, (acc.map (fun e : (Option Nat × String) × List String => e.1.2)).Nodup →
      ((files.foldl buildGroupsStep acc).map (fun e => e.1.2)).Nodup by
    exact h [] (by simp)
  induction files with
  | nil => exact fun acc hacc => hacc
  | cons f files ih =>
      intro acc hacc
      simp only [List.foldl_cons]
      exact ih _ (buildGroupsStep_headers acc f hacc)

/-- C8: filenames matching the grouping convention get header
`"<integer>.(<query>)"` with the integer as sort key, others get
`"FILE: <name>"` with no key; files sharing a header merge into one group
(headers stay distinct across groups, and the two `2.(Cats)` files merge);
and the sorted group list is a permutation of the order keys that is
non-decreasing in the claimed order — numeric keys first, ascending then
alphabetically by header on ties, keyless groups after, alphabetically. -/
theorem group_assignment_and_order (files : List String)
    (ks : List (Option Nat × String)) :
    extract_group_header "2.(Cats)_0-100.ris" = (some 2, "2.(Cats)")
    ∧ extract_group_header "2.(Cats)_all.ris" = (some 2, "2.(Cats)")
    ∧ extract_group_header "summary_2020.ris" = (none, "FILE: summary_2020.ris")
    ∧ buildGroups ["2.(Cats)_0-100.ris", "2.(Cats)_all.ris"]
        = [((some 2, "2.(Cats)"), ["2.(Cats)_0-100.ris", "2.(Cats)_all.ris"])]
    ∧ ((buildGroups files).map (fun e => e.1.2)).Nodup
    ∧ (sortGroups ks).Perm ks
    ∧ (sortGroups ks).Pairwise groupLE
    ∧ sortGroups
        [(none, "FILE: b.ris"), (some 10, "10.(B)"), (some 2, "2.(A)"), (none, "FILE: a.ris")]
        = [(some 2, "2.(A)"), (some 10, "10.(B)"), (none, "FILE: a.ris"), (none, "FILE: b.ris")] := by
  refine ⟨by decide, by decide, by decide, by decide, buildGroups_headers_nodup files,
    List.perm_insertionSort grpLe ks, ?_, by decide⟩
  exact (List.sorted_insertionSort grpLe ks).imp (fun h => (grpLe_iff_groupLE _ _).mp h)

end Ris

